import Mathlib

/-!
Verification of the binomial option pricing case study.

Shallow embedding of the notebook source `src/ValidusCaseStudy.ipynb` over exact
rationals (`ℚ` stands for the source's floating-point reals; `ℕ` for the period
count `N`).  The external root-finder `brentq` is out of scope in the design and
is modelled as an explicit black-box argument `solver`.
-/

set_option linter.unusedVariables false

namespace BinomialPricing

open Finset

/-- Backward-induction values of the European call.  `eurAux v K N d i` is the
value stored at the lattice node with `i` down-moves and `d` periods left before
expiry `N` (the array `C` of the source's `EuropeanCallValue`): at `d = 0` the
terminal payoff `max(0, (1-v)^i (1+v)^(N-i) - K)`, otherwise the average of the
two successor values with risk-neutral probability `p = 1/2`. -/
def eurAux (v K : ℚ) (N : ℕ) : ℕ → ℕ → ℚ
  | 0, i => max 0 ((1 - v) ^ i * (1 + v) ^ (N - i) - K)
  | d + 1, i => (eurAux v K N d i + eurAux v K N d (i + 1)) / 2

/-- `EuropeanCallValue N v K`: the source's backward-induction European call
valuator; the value at the base node `(0,0)`. -/
def EuropeanCallValue (N : ℕ) (v K : ℚ) : ℚ := eurAux v K N N 0

/-- Backward-induction values of the American call (the array `C` of the
source's `AmericanCallValue`).  Terminal values as in the European case; at an
interior node with `d + 1` periods left (time `j = N - (d+1)`) the value is the
maximum of the continuation value and the immediate-exercise value
`(1-v)^i (1+v)^(j-i) - K` (the stock price stored at that node minus the
strike, not floored at zero). -/
def amAux (v K : ℚ) (N : ℕ) : ℕ → ℕ → ℚ
  | 0, i => max 0 ((1 - v) ^ i * (1 + v) ^ (N - i) - K)
  | d + 1, i =>
      max ((amAux v K N d i + amAux v K N d (i + 1)) / 2)
        ((1 - v) ^ i * (1 + v) ^ (N - (d + 1) - i) - K)

/-- `AmericanCallValue N v K`: the source's American call valuator. -/
def AmericanCallValue (N : ℕ) (v K : ℚ) : ℚ := amAux v K N N 0

/-- The closed-form terminal-distribution price used inside the source's
`vCalibration` objective `f`:
`sum(comb(N,j) * max(0, (1+v)^j (1-v)^(N-j) - K) for j in range(N+1)) / 2^N`. -/
def binomialFormulaPrice (N : ℕ) (v K : ℚ) : ℚ :=
  (∑ j in Finset.range (N + 1),
      (N.choose j : ℚ) * max 0 ((1 + v) ^ j * (1 - v) ^ (N - j) - K)) / 2 ^ N

/-- `vCalibration solver N K C`: the source's single-instrument calibration,
with the external bracketed root-finder `brentq` abstracted as `solver`; it
solves `binomialFormulaPrice N v K - C = 0` on the bracket `(0, 1)`. -/
def vCalibration (solver : (ℚ → ℚ) → ℚ → ℚ → ℚ) (N : ℕ) (K C : ℚ) : ℚ :=
  solver (fun v => binomialFormulaPrice N v K - C) 0 1

/-- The inner compound payoff function of `vCalibrationMulti` for instruments
after the first, as the source actually evaluates it: because the Python
closures capture the loop variable `j` by reference and the `while` loop has
decremented `j` to `1` before any call, every occurrence of `N[j-1]` and
`K[j-1]` inside `f2` resolves to `N[0]` and `K[0]`, and the already-solved
`V[0]` enters through the `(1+V[0])^t (1-V[0])^(N[0]-t)` factor. -/
def f2post (N0 : ℕ) (K0 V0 v : ℚ) (t : ℕ) : ℚ :=
  (∑ i in Finset.range (N0 + 1),
      (N0.choose i : ℚ) *
        max 0 ((1 + V0) ^ t * (1 - V0) ^ (N0 - t) * (1 + v) ^ i * (1 - v) ^ (N0 - i) - K0)) /
    2 ^ N0

/-- The outer objective `g` of `vCalibrationMulti` for instruments after the
first (again with the late-bound `j = 1`, so `N[j-1] = N[0]`), minus the
observed price `C[i-1]` of the current instrument. -/
def gMulti (N0 : ℕ) (K0 V0 Ci : ℚ) (v : ℚ) : ℚ :=
  (∑ t in Finset.range (N0 + 1), (N0.choose t : ℚ) * f2post N0 K0 V0 v t) / 2 ^ N0 - Ci

/-- `vCalibrationMulti solver N K C`: the source's sequential multi-instrument
calibration over parallel lists.  Index `0` of the result is solved exactly as
in `vCalibration` from instrument `0`; every later index is solved from the
late-bound objective `gMulti` built on instrument `0`'s block and the solved
`V[0]`, minus that instrument's observed price. -/
def vCalibrationMulti (solver : (ℚ → ℚ) → ℚ → ℚ → ℚ) (N : List ℕ) (K C : List ℚ) : List ℚ :=
  (List.range N.length).map fun idx =>
    if idx = 0 then
      solver (fun v => binomialFormulaPrice (N.getD 0 0) v (K.getD 0 0) - C.getD 0 0) 0 1
    else
      solver (gMulti (N.getD 0 0) (K.getD 0 0)
        (solver (fun v => binomialFormulaPrice (N.getD 0 0) v (K.getD 0 0) - C.getD 0 0) 0 1)
        (C.getD idx 0)) 0 1

/-- `numberDyckPaths n = comb(2n, n) / (n+1)`: the source's count of Dyck paths
of length `2n`. -/
def numberDyckPaths (n : ℕ) : ℚ := (Nat.choose (2 * n) n : ℚ) / (n + 1)

/-- `numberPrimitiveDyckPaths n = comb(2n-2, n-1) / n`: the source's count of
primitive Dyck paths of length `2n` (subtractions are truncated at `0`, as the
value is only meaningful for `n ≥ 1`; at `n = 0` the rational division by `0`
yields `0` here, where the Python source raises `ZeroDivisionError`). -/
def numberPrimitiveDyckPaths (n : ℕ) : ℚ := (Nat.choose (2 * n - 2) (n - 1) : ℚ) / n

/-- `numberPrimitiveDyckPaths` with the source's failure made explicit: in
Python, `comb(2*n-2, n-1) / n` raises `ZeroDivisionError` when `n = 0`, so the
checked version returns no value there. -/
def numberPrimitiveDyckPathsChecked (n : ℕ) : Option ℚ :=
  if n = 0 then none else some (numberPrimitiveDyckPaths n)

/-- Unnormalised forward grid `P1` of `expectedMaxPrice` (path counts): the
value at row `i`, column (period) `j`.  Columns `0`, `1`, `2` are the base
cases `P1[0,0] = P1[0,1] = P1[0,2] = 1` (all other rows `0`); for `j ≥ 3`,
`P1[i,j] = sum(P1[i-k, j-1-2k] * numberDyckPaths(k) for k in
range(min(i+1, (j-1)//2+1)))`.  Column values do not depend on the grid size
`N`, so the grid is embedded as a function of `(i, j)` alone. -/
def P1u (i j : ℕ) : ℚ :=
  if _h : j ≤ 2 then (if i = 0 then 1 else 0)
  else
    ∑ k in Finset.range (min (i + 1) ((j - 1) / 2 + 1)),
      P1u (i - k) (j - 1 - 2 * k) * numberDyckPaths k
termination_by j
decreasing_by omega

/-- Normalised forward grid: column `j` of `P1` divided by `2^j`. -/
def P1n (i j : ℕ) : ℚ := P1u i j / 2 ^ j

/-- The backward pass's excursion half-length range `range(1, (N-j)//2 + 1)`
from `expectedMaxPrice`. -/
def kRange2 (N j : ℕ) : Finset ℕ := Finset.Ico 1 ((N - j) / 2 + 1)

/-- Unnormalised backward grid `P2` of `expectedMaxPrice` (path counts):
column `N` is all ones (`P2[:,-1] = 1`); for `j < N` the rows `i ≤ j` are
`P2[i,j] = P2[i+1,j+1] + sum(P2[i+k, j+2k] * numberPrimitiveDyckPaths(k) for k
in range(1, (N-j)//2+1))` and the rows `i > j` are never assigned (`0`). -/
def P2u (N i j : ℕ) : ℚ :=
  if j = N then 1
  else if _h : j < N ∧ i ≤ j then
    P2u N (i + 1) (j + 1) +
      ∑ k in (kRange2 N j).attach,
        P2u N (i + k.1) (j + 2 * k.1) * numberPrimitiveDyckPaths k.1
  else 0
termination_by N - j
decreasing_by
  · omega
  · have hk := Finset.mem_Ico.mp k.2
    omega

/-- Normalised backward grid: column `j` of `P2` divided by `2^(N-j)`. -/
def P2n (N i j : ℕ) : ℚ := P2u N i j / 2 ^ (N - j)

/-- The stock-price grid `S` of `expectedMaxPrice`: `S[i,j] = (1-v)^i (1+v)^(j-i)`
on the triangle `i ≤ j`, `0` at the never-assigned entries `i > j`. -/
def stockPriceGrid (v : ℚ) (i j : ℕ) : ℚ :=
  if i ≤ j then (1 - v) ^ i * (1 + v) ^ (j - i) else 0

/-- `expectedMaxPrice N v`: the source's running-maximum expectation
`np.sum(P1 * P2 * S)` over the `(N+1) × (N+1)` grids.  The guard models the
source's failure on small grids: the unconditional base-case writes
`P1[0,1] = 1` and `P1[0,2] = 1` raise `IndexError` whenever `N + 1 ≤ 2`, so no
value is produced for `N < 2`. -/
def expectedMaxPrice (N : ℕ) (v : ℚ) : Option ℚ :=
  if N < 2 then none
  else some (∑ j in Finset.range (N + 1), ∑ i in Finset.range (N + 1),
      P1n i j * P2n N i j * stockPriceGrid v i j)

/-- The European backward recursion with the node's stock price made explicit:
`genEur v K d s` is the value with `d` periods left when the current stock
price is `s` (the same recursion as `eurAux`, used to relate values across
different step parameters `v`). -/
def genEur (v K : ℚ) : ℕ → ℚ → ℚ
  | 0, s => max 0 (s - K)
  | d + 1, s => (genEur v K d (s * (1 + v)) + genEur v K d (s * (1 - v))) / 2

/-! ### European and American valuators agree (backward-induction analysis) -/

/-- At every lattice node the European value dominates the immediate-exercise
value `S - K`: the discounted price process is a martingale (`p = 1/2` and
`((1+v) + (1-v))/2 = 1`), so continuation never loses against exercise. -/
lemma payoff_le_eurAux (v K : ℚ) (N : ℕ) :
    ∀ d i, i + d ≤ N → (1 - v) ^ i * (1 + v) ^ (N - d - i) - K ≤ eurAux v K N d i := by
  intro d
  induction d with
  | zero =>
    intro i _
    show (1 - v) ^ i * (1 + v) ^ (N - 0 - i) - K ≤ max 0 ((1 - v) ^ i * (1 + v) ^ (N - i) - K)
    rw [Nat.sub_zero]
    exact le_max_right _ _
  | succ d ih =>
    intro i hi
    have h1 : i + d ≤ N := by omega
    have h2 : (i + 1) + d ≤ N := by omega
    have e1 : N - d - i = (N - (d + 1) - i) + 1 := by omega
    have e2 : N - d - (i + 1) = N - (d + 1) - i := by omega
    have step : (1 - v) ^ i * (1 + v) ^ (N - (d + 1) - i) - K =
        (((1 - v) ^ i * (1 + v) ^ (N - d - i) - K) +
          ((1 - v) ^ (i + 1) * (1 + v) ^ (N - d - (i + 1)) - K)) / 2 := by
      rw [e1, e2, pow_succ, pow_succ]
      ring
    rw [step]
    have ha := ih i h1
    have hb := ih (i + 1) h2
    show _ ≤ (eurAux v K N d i + eurAux v K N d (i + 1)) / 2
    linarith

/-- Node by node, the American backward induction produces exactly the European
values: the exercise value never exceeds continuation, so the `max` always
resolves to the continuation branch. -/
lemma amAux_eq_eurAux (v K : ℚ) (N : ℕ) :
    ∀ d i, i + d ≤ N → amAux v K N d i = eurAux v K N d i := by
  intro d
  induction d with
  | zero => intro i _; rfl
  | succ d ih =>
    intro i hi
    have h1 := ih i (by omega)
    have h2 := ih (i + 1) (by omega)
    show max ((amAux v K N d i + amAux v K N d (i + 1)) / 2)
        ((1 - v) ^ i * (1 + v) ^ (N - (d + 1) - i) - K) = _
    rw [h1, h2]
    exact max_eq_left (payoff_le_eurAux v K N (d + 1) i hi)

/-- The two valuators agree for all parameters. -/
lemma AmericanCallValue_eq_EuropeanCallValue (N : ℕ) (v K : ℚ) :
    AmericanCallValue N v K = EuropeanCallValue N v K :=
  amAux_eq_eurAux v K N N 0 (by omega)

/-- **C1.** For every `N ≥ 0`, every `v ∈ (0,1)` and every `K ≥ 0`, the
American valuator dominates the European one, and under the model's zero-drift
zero-rate assumption the two are exactly equal. -/
theorem american_european_equal (N : ℕ) (v K : ℚ)
    (hv0 : 0 < v) (hv1 : v < 1) (hK : 0 ≤ K) :
    EuropeanCallValue N v K ≤ AmericanCallValue N v K ∧
      AmericanCallValue N v K = EuropeanCallValue N v K :=
  ⟨(AmericanCallValue_eq_EuropeanCallValue N v K).ge,
    AmericanCallValue_eq_EuropeanCallValue N v K⟩

/-- Witness for C1 at `N = 2`, `v = 1/2`, `K = 1`. -/
theorem american_european_equal_witness :
    (0 : ℚ) < 1/2 ∧ (1/2 : ℚ) < 1 ∧ (0 : ℚ) ≤ 1 ∧
      (EuropeanCallValue 2 (1/2) 1 ≤ AmericanCallValue 2 (1/2) 1 ∧
        AmericanCallValue 2 (1/2) 1 = EuropeanCallValue 2 (1/2) 1) :=
  ⟨by norm_num, by norm_num, by norm_num,
    american_european_equal 2 (1/2) 1 (by norm_num) (by norm_num) (by norm_num)⟩

/-! ### Backward induction equals the terminal-distribution sum -/

/-- Closed form of the backward induction: the value `d` periods before expiry
at row `i` is the binomially weighted average of the terminal payoffs of the
`d`-step subtree rooted there (pure Pascal-triangle induction). -/
lemma eurAux_eq_sum (v K : ℚ) (N : ℕ) :
    ∀ d i, eurAux v K N d i =
      (∑ t in Finset.range (d + 1),
        (d.choose t : ℚ) * max 0 ((1 - v) ^ (i + t) * (1 + v) ^ (N - (i + t)) - K)) / 2 ^ d := by
  intro d
  induction d with
  | zero =>
    intro i
    simp [eurAux]
  | succ d ih =>
    intro i
    have key : ∀ g : ℕ → ℚ,
        (∑ t in Finset.range (d + 1 + 1), ((d + 1).choose t : ℚ) * g (i + t)) =
          (∑ t in Finset.range (d + 1), (d.choose t : ℚ) * g (i + t)) +
            ∑ t in Finset.range (d + 1), (d.choose t : ℚ) * g (i + 1 + t) := by
      intro g
      have swap1 : (∑ t in Finset.range (d + 1), ((d + 1).choose (t + 1) : ℚ) * g (i + (t + 1)))
          = ∑ t in Finset.range (d + 1),
              ((d.choose t : ℚ) * g (i + 1 + t) + (d.choose (t + 1) : ℚ) * g (i + (t + 1))) := by
        refine Finset.sum_congr rfl (fun t _ => ?_)
        have ht : i + (t + 1) = i + 1 + t := by omega
        rw [Nat.choose_succ_succ]
        push_cast
        rw [ht]
        ring
      rw [Finset.sum_range_succ' (fun t => ((d + 1).choose t : ℚ) * g (i + t)) (d + 1),
        swap1, Finset.sum_add_distrib,
        Finset.sum_range_succ (fun t => ((d.choose (t + 1) : ℚ)) * g (i + (t + 1))) d,
        Finset.sum_range_succ' (fun t => ((d : ℕ).choose t : ℚ) * g (i + t)) d]
      simp only [Nat.choose_succ_self, Nat.cast_zero, zero_mul, add_zero,
        Nat.choose_zero_right, Nat.cast_one, one_mul]
      ring
    show (eurAux v K N d i + eurAux v K N d (i + 1)) / 2 = _
    rw [ih i, ih (i + 1), key (fun x => max 0 ((1 - v) ^ x * (1 + v) ^ (N - x) - K))]
    rw [pow_succ]
    field_simp

/-- The backward-induction European price equals the closed-form
terminal-distribution sum of the calibration objective, for all parameters
(the sum is the same up to the reflection `j ↦ N - j` of the summation index). -/
lemma EuropeanCallValue_eq_formula (N : ℕ) (v K : ℚ) :
    EuropeanCallValue N v K = binomialFormulaPrice N v K := by
  show eurAux v K N N 0 = _
  rw [eurAux_eq_sum v K N N 0, binomialFormulaPrice]
  congr 1
  rw [← Finset.sum_range_reflect
    (fun j => (N.choose j : ℚ) * max 0 ((1 + v) ^ j * (1 - v) ^ (N - j) - K)) (N + 1)]
  refine Finset.sum_congr rfl (fun t ht => ?_)
  have htN : t ≤ N := by
    have := Finset.mem_range.mp ht
    omega
  have e0 : N + 1 - 1 - t = N - t := by omega
  have e1 : N - (N - t) = t := by omega
  have e2 : 0 + t = t := by omega
  rw [e0, e1, Nat.choose_symm htN, e2, mul_comm ((1 + v) ^ (N - t)) ((1 - v) ^ t)]

/-- **C2.** For every `N ≥ 0`, `v ∈ (0,1)` and `K ≥ 0`, the backward-induction
European price equals the closed-form terminal-distribution sum used by the
calibration engine. -/
theorem european_eq_terminal_sum (N : ℕ) (v K : ℚ)
    (hv0 : 0 < v) (hv1 : v < 1) (hK : 0 ≤ K) :
    EuropeanCallValue N v K = binomialFormulaPrice N v K :=
  EuropeanCallValue_eq_formula N v K

/-- Witness for C2 at `N = 2`, `v = 1/2`, `K = 1`. -/
theorem european_eq_terminal_sum_witness :
    (0 : ℚ) < 1/2 ∧ (1/2 : ℚ) < 1 ∧ (0 : ℚ) ≤ 1 ∧
      EuropeanCallValue 2 (1/2) 1 = binomialFormulaPrice 2 (1/2) 1 :=
  ⟨by norm_num, by norm_num, by norm_num,
    european_eq_terminal_sum 2 (1/2) 1 (by norm_num) (by norm_num) (by norm_num)⟩

/-! ### Boundary behaviour, validation, calibration and Dyck counts -/

/-- **C4** (code bug).  At `N = 0` the running-maximum engine produces no value
at all: the source unconditionally executes `P1[0,1] = 1` (and `P1[0,2] = 1`),
which is an out-of-bounds write on the `1 × 1` grid and raises `IndexError`,
instead of returning the claimed boundary value `1`. -/
theorem expectedMaxPrice_fails_at_zero : expectedMaxPrice 0 (1/2) = none := rfl

/-- **C5** (counterexample).  No `InvalidParameterError` exists in the source:
on the invalid input `v = 2 ∉ (0,1)`, `K = -1 < 0`, the European valuator
performs no validation and produces the ordinary numeric result `2`
(terminal payoffs `max(0, 3-(-1)) = 4` and `max(0, -1-(-1)) = 0`, averaged),
contradicting the claim that the only possible outcome is the error. -/
theorem no_validation_counterexample : EuropeanCallValue 1 2 (-1) = 2 := by
  show (eurAux 2 (-1) 1 0 0 + eurAux 2 (-1) 1 0 1) / 2 = 2
  show (max 0 ((1 - 2) ^ (0:ℕ) * (1 + 2) ^ (1 - 0) - (-1)) +
    max 0 ((1 - 2) ^ (1:ℕ) * (1 + 2) ^ (1 - 1) - (-1))) / 2 = 2
  norm_num

/-- **C5** (amended).  The valuation and calibration operations perform no
parameter validation: for `v` outside `(0,1)` or `K < 0` they return ordinary
numeric results (shown here at `v = 2`, `K = 0` for both valuators), and the
calibration entry point hands any parameters, including a negative strike and
a negative observed price, straight to the external root-finder.  (`N < 0` is
not representable: the period count is a natural number in the embedding;
in the source it leads to an `IndexError` on an empty array, again not to an
`InvalidParameterError`.) -/
theorem no_validation_amended :
    EuropeanCallValue 1 2 0 = 3/2 ∧ AmericanCallValue 1 2 0 = 3/2 ∧
      (∀ solver : (ℚ → ℚ) → ℚ → ℚ → ℚ,
        vCalibration solver 1 (-1) (-1) =
          solver (fun v => binomialFormulaPrice 1 v (-1) - (-1)) 0 1) := by
  refine ⟨?_, ?_, fun solver => rfl⟩
  · show (eurAux 2 0 1 0 0 + eurAux 2 0 1 0 1) / 2 = 3/2
    show (max 0 ((1 - 2) ^ (0:ℕ) * (1 + 2) ^ (1 - 0) - 0) +
      max 0 ((1 - 2) ^ (1:ℕ) * (1 + 2) ^ (1 - 1) - 0)) / 2 = 3/2
    norm_num
  · show max ((amAux 2 0 1 0 0 + amAux 2 0 1 0 1) / 2)
      ((1 - 2) ^ (0:ℕ) * (1 + 2) ^ (1 - (0 + 1) - 0) - 0) = 3/2
    show max ((max 0 ((1 - 2) ^ (0:ℕ) * (1 + 2) ^ (1 - 0) - 0) +
        max 0 ((1 - 2) ^ (1:ℕ) * (1 + 2) ^ (1 - 1) - 0)) / 2)
      ((1 - 2) ^ (0:ℕ) * (1 + 2) ^ (1 - (0 + 1) - 0) - 0) = 3/2
    norm_num

/-- **C7.** Round-trip of pricing and calibration: whenever the external
root-finder meets its bracketed-solve contract on the calibration call — the
returned parameter lies in the bracket `[0,1]` and brings the objective
`binomialFormulaPrice N · K - price` within `tol` of zero — then pricing with
the backward-induction European valuator at the calibrated parameter recovers
the target price within the same tolerance, for any target strictly between
the claimed minimum `0` and maximum (`1-K` when `K < 1`, else `0`). -/
theorem calibration_round_trip (solver : (ℚ → ℚ) → ℚ → ℚ → ℚ) (N : ℕ) (K price tol : ℚ)
    (hp0 : 0 < price) (hp1 : price < (if K < 1 then 1 - K else 0))
    (hlo : 0 ≤ vCalibration solver N K price) (hhi : vCalibration solver N K price ≤ 1)
    (hsolve : |binomialFormulaPrice N (vCalibration solver N K price) K - price| ≤ tol) :
    |EuropeanCallValue N (vCalibration solver N K price) K - price| ≤ tol := by
  rw [EuropeanCallValue_eq_formula]
  exact hsolve

/-- Witness for C7: the constant solver returning `1/2` on instrument
`N = 1`, `K = 1/2`, target price `1/4`, tolerance `1/4`
(`binomialFormulaPrice 1 (1/2) (1/2) = 1/2`). -/
theorem calibration_round_trip_witness :
    (0 : ℚ) < 1/4 ∧ ((1/4 : ℚ) < (if (1/2 : ℚ) < 1 then 1 - 1/2 else 0)) ∧
      |EuropeanCallValue 1 (vCalibration (fun _ _ _ => 1/2) 1 (1/2) (1/4)) (1/2) - 1/4| ≤ 1/4 := by
  have hval : vCalibration (fun _ _ _ => 1/2) 1 (1/2) (1/4) = 1/2 := rfl
  refine ⟨by norm_num, by norm_num, ?_⟩
  refine calibration_round_trip (fun _ _ _ => 1/2) 1 (1/2) (1/4) (1/4)
    (by norm_num) (by norm_num) (by rw [hval]; norm_num) (by rw [hval]; norm_num) ?_
  rw [hval]
  show |(∑ j in Finset.range 2,
      ((1:ℕ).choose j : ℚ) * max 0 ((1 + 1/2) ^ j * (1 - 1/2) ^ (1 - j) - 1/2)) / 2 ^ 1
    - 1/4| ≤ 1/4
  rw [Finset.sum_range_succ, Finset.sum_range_one]
  norm_num
  rw [abs_of_nonneg]
  all_goals norm_num

/-- **C8.** Sequential calibration of a single-element instrument list agrees
with single calibration: both hand the identical objective (the closed-form
terminal-distribution sum of instrument `0` minus its observed price) to the
root-finder on the bracket `(0, 1)`. -/
theorem sequential_single_instrument (solver : (ℚ → ℚ) → ℚ → ℚ → ℚ) (n : ℕ) (k c : ℚ) :
    vCalibrationMulti solver [n] [k] [c] = [vCalibration solver n k c] := rfl

/-- **C9.** The Dyck-path counters compute the stated closed forms and values:
`numberDyckPaths n = C(2n,n)/(n+1)` for every `n ≥ 0` with values
`1, 1, 2, 5` at `n = 0, 1, 2, 3`, and
`numberPrimitiveDyckPaths n = C(2n-2,n-1)/n` for every `n ≥ 1` (stated with
`n = m + 1`) with values `1, 1, 2` at `n = 1, 2, 3`. -/
theorem dyck_counters_closed_forms :
    (∀ n : ℕ, numberDyckPaths n = (Nat.choose (2 * n) n : ℚ) / (n + 1)) ∧
      numberDyckPaths 0 = 1 ∧ numberDyckPaths 1 = 1 ∧
      numberDyckPaths 2 = 2 ∧ numberDyckPaths 3 = 5 ∧
      (∀ m : ℕ, numberPrimitiveDyckPaths (m + 1) =
        (Nat.choose (2 * (m + 1) - 2) m : ℚ) / ((m + 1 : ℕ) : ℚ)) ∧
      numberPrimitiveDyckPaths 1 = 1 ∧ numberPrimitiveDyckPaths 2 = 1 ∧
      numberPrimitiveDyckPaths 3 = 2 := by
  refine ⟨fun n => rfl, ?_, ?_, ?_, ?_, fun m => rfl, ?_, ?_, ?_⟩ <;>
    norm_num [numberDyckPaths, numberPrimitiveDyckPaths, Nat.choose]

/-- **C10.** The backward pass of the running-maximum engine only ever invokes
the primitive Dyck-path counter with arguments from `range(1, (N-j)//2+1)`;
every such argument is at least `1`, so the division by `n` in
`numberPrimitiveDyckPaths` never divides by zero and the checked version (the
`ZeroDivisionError` branch made explicit) always returns the unchecked value. -/
theorem primitive_counter_never_zero (N j k : ℕ) (hk : k ∈ kRange2 N j) :
    1 ≤ k ∧ numberPrimitiveDyckPathsChecked k = some (numberPrimitiveDyckPaths k) := by
  have h1 : 1 ≤ k := (Finset.mem_Ico.mp hk).1
  refine ⟨h1, ?_⟩
  rw [numberPrimitiveDyckPathsChecked, if_neg (by omega)]

/-- Witness for C10 at `N = 2`, `j = 0`, `k = 1`. -/
theorem primitive_counter_never_zero_witness :
    1 ∈ kRange2 2 0 ∧ (1 ≤ 1 ∧
      numberPrimitiveDyckPathsChecked 1 = some (numberPrimitiveDyckPaths 1)) :=
  ⟨by decide, primitive_counter_never_zero 2 0 1 (by decide)⟩

/-! ### Monotonicity of the European price in the step parameter -/

/-- Two-point convexity of a rational function. -/
def ConvexFun (g : ℚ → ℚ) : Prop :=
  ∀ a b t : ℚ, 0 ≤ t → t ≤ 1 → g (t * a + (1 - t) * b) ≤ t * g a + (1 - t) * g b

/-- The call payoff is convex. -/
lemma convexFun_payoff (K : ℚ) : ConvexFun (fun s => max 0 (s - K)) := by
  intro a b t ht0 ht1
  dsimp only
  have h1 : t * a + (1 - t) * b - K = t * (a - K) + (1 - t) * (b - K) := by ring
  rcases le_total 0 (t * a + (1 - t) * b - K) with h | h
  · have ha : a - K ≤ max 0 (a - K) := le_max_right _ _
    have hb : b - K ≤ max 0 (b - K) := le_max_right _ _
    rw [max_eq_right h, h1]
    have := mul_le_mul_of_nonneg_left ha ht0
    have := mul_le_mul_of_nonneg_left hb (by linarith : (0:ℚ) ≤ 1 - t)
    linarith
  · rw [max_eq_left h]
    have ha : (0:ℚ) ≤ max 0 (a - K) := le_max_left _ _
    have hb : (0:ℚ) ≤ max 0 (b - K) := le_max_left _ _
    have := mul_le_mul_of_nonneg_left ha ht0
    have := mul_le_mul_of_nonneg_left hb (by linarith : (0:ℚ) ≤ 1 - t)
    linarith

/-- Convexity is preserved by precomposition with scaling. -/
lemma convexFun_comp_scale {g : ℚ → ℚ} (hg : ConvexFun g) (c : ℚ) :
    ConvexFun (fun s => g (s * c)) := by
  intro a b t ht0 ht1
  dsimp only
  have h1 : (t * a + (1 - t) * b) * c = t * (a * c) + (1 - t) * (b * c) := by ring
  rw [h1]
  exact hg (a * c) (b * c) t ht0 ht1

/-- Convexity is preserved by averaging two convex functions. -/
lemma convexFun_avg {g1 g2 : ℚ → ℚ} (h1 : ConvexFun g1) (h2 : ConvexFun g2) :
    ConvexFun (fun s => (g1 s + g2 s) / 2) := by
  intro a b t ht0 ht1
  have ha := h1 a b t ht0 ht1
  have hb := h2 a b t ht0 ht1
  simp only
  linarith

/-- Every stage of the price-parametric European recursion is convex in the
stock price. -/
lemma genEur_convexFun (v K : ℚ) : ∀ d, ConvexFun (genEur v K d) := by
  intro d
  induction d with
  | zero => exact convexFun_payoff K
  | succ d ih =>
    have h1 := convexFun_comp_scale ih (1 + v)
    have h2 := convexFun_comp_scale ih (1 - v)
    have := convexFun_avg h1 h2
    intro a b t ht0 ht1
    exact this a b t ht0 ht1

/-- For a convex function, the symmetric two-point average around a centre is
monotone in the spread. -/
lemma convexFun_spread {g : ℚ → ℚ} (hg : ConvexFun g) (s x x' : ℚ)
    (hx0 : 0 ≤ x) (hxx : x ≤ x') :
    g (s + x) + g (s - x) ≤ g (s + x') + g (s - x') := by
  rcases eq_or_lt_of_le (le_trans hx0 hxx) with h0 | h0
  · have hx'0 : x' = 0 := h0.symm
    have hx00 : x = 0 := le_antisymm (hx'0 ▸ hxx) hx0
    rw [hx'0, hx00]
  · set t : ℚ := (x' + x) / (2 * x') with hts
    have htx : 0 < x' := h0
    have ht0 : 0 ≤ t := by positivity
    have ht1 : t ≤ 1 := by
      rw [hts, div_le_one (by linarith)]
      linarith
    have h1mt : 1 - t = (x' - x) / (2 * x') := by
      rw [hts]
      field_simp
      ring
    have e1 : t * (s + x') + (1 - t) * (s - x') = s + x := by
      rw [hts, h1mt]
      field_simp
      ring
    have e2 : (1 - t) * (s + x') + t * (s - x') = s - x := by
      rw [hts, h1mt]
      field_simp
      ring
    have c1 := hg (s + x') (s - x') t ht0 ht1
    have c2 : g ((1 - t) * (s + x') + (1 - (1 - t)) * (s - x')) ≤
        (1 - t) * g (s + x') + (1 - (1 - t)) * g (s - x') :=
      hg (s + x') (s - x') (1 - t) (by linarith) (by linarith)
    rw [e1] at c1
    have e2' : (1 - t) * (s + x') + (1 - (1 - t)) * (s - x') = s - x := by
      rw [show (1 - (1 - t)) = t by ring]
      exact e2
    rw [e2'] at c2
    linarith

/-- The price-parametric European value is monotone in the step parameter at
every nonnegative stock price. -/
lemma genEur_mono (K : ℚ) : ∀ d (v v' s : ℚ), 0 ≤ v → v ≤ v' → v' ≤ 1 → 0 ≤ s →
    genEur v K d s ≤ genEur v' K d s := by
  intro d
  induction d with
  | zero => intro v v' s _ _ _ _; exact le_refl _
  | succ d ih =>
    intro v v' s hv0 hvv hv1 hs
    have hup : genEur v K d (s * (1 + v)) ≤ genEur v' K d (s * (1 + v)) :=
      ih v v' (s * (1 + v)) hv0 hvv hv1 (by nlinarith)
    have hdn : genEur v K d (s * (1 - v)) ≤ genEur v' K d (s * (1 - v)) :=
      ih v v' (s * (1 - v)) hv0 hvv hv1 (by nlinarith)
    have hspread : genEur v' K d (s * (1 + v)) + genEur v' K d (s * (1 - v)) ≤
        genEur v' K d (s * (1 + v')) + genEur v' K d (s * (1 - v')) := by
      have e1 : s * (1 + v) = s + s * v := by ring
      have e2 : s * (1 - v) = s - s * v := by ring
      have e3 : s * (1 + v') = s + s * v' := by ring
      have e4 : s * (1 - v') = s - s * v' := by ring
      rw [e1, e2, e3, e4]
      exact convexFun_spread (genEur_convexFun v' K d) s (s * v) (s * v')
        (by positivity) (by nlinarith)
    show (genEur v K d (s * (1 + v)) + genEur v K d (s * (1 - v))) / 2 ≤
      (genEur v' K d (s * (1 + v')) + genEur v' K d (s * (1 - v'))) / 2
    linarith

/-- The backward induction with explicit node prices reproduces `eurAux`:
at row `i` with `d` periods left the node price is `(1-v)^i (1+v)^(N-d-i)`. -/
lemma eurAux_eq_genEur (v K : ℚ) (N : ℕ) :
    ∀ d i, i + d ≤ N → eurAux v K N d i = genEur v K d ((1 - v) ^ i * (1 + v) ^ (N - d - i)) := by
  intro d
  induction d with
  | zero =>
    intro i _
    show max 0 ((1 - v) ^ i * (1 + v) ^ (N - i) - K) = _
    rw [Nat.sub_zero]
    rfl
  | succ d ih =>
    intro i hi
    have e1 : N - d - i = (N - (d + 1) - i) + 1 := by omega
    have e2 : N - d - (i + 1) = N - (d + 1) - i := by omega
    show (eurAux v K N d i + eurAux v K N d (i + 1)) / 2 = _
    rw [ih i (by omega), ih (i + 1) (by omega), e1, e2]
    show _ = (genEur v K d (((1 - v) ^ i * (1 + v) ^ (N - (d + 1) - i)) * (1 + v)) +
      genEur v K d (((1 - v) ^ i * (1 + v) ^ (N - (d + 1) - i)) * (1 - v))) / 2
    rw [pow_succ, pow_succ]
    congr 2
    · ring_nf
    · ring_nf

/-- **C6.** For fixed `N` and fixed `K > 0`, the European price is
non-decreasing in the step parameter on `(0,1)`. -/
theorem european_monotone_in_v (N : ℕ) (K v1 v2 : ℚ)
    (hK : 0 < K) (h01 : 0 < v1) (h11 : v1 < 1) (h02 : 0 < v2) (h12 : v2 < 1)
    (h12' : v1 ≤ v2) :
    EuropeanCallValue N v1 K ≤ EuropeanCallValue N v2 K := by
  have e1 : EuropeanCallValue N v1 K = genEur v1 K N 1 := by
    show eurAux v1 K N N 0 = _
    rw [eurAux_eq_genEur v1 K N N 0 (by omega)]
    norm_num
  have e2 : EuropeanCallValue N v2 K = genEur v2 K N 1 := by
    show eurAux v2 K N N 0 = _
    rw [eurAux_eq_genEur v2 K N N 0 (by omega)]
    norm_num
  rw [e1, e2]
  exact genEur_mono K N v1 v2 1 (le_of_lt h01) h12' (le_of_lt h12) (by norm_num)

/-- Witness for C6 at `N = 2`, `K = 1`, `v1 = 1/4`, `v2 = 1/2`. -/
theorem european_monotone_in_v_witness :
    (0 : ℚ) < 1 ∧ (0 : ℚ) < 1/4 ∧ (1/4 : ℚ) < 1 ∧ (0 : ℚ) < 1/2 ∧ (1/2 : ℚ) < 1 ∧
      (1/4 : ℚ) ≤ 1/2 ∧ EuropeanCallValue 2 (1/4) 1 ≤ EuropeanCallValue 2 (1/2) 1 :=
  ⟨by norm_num, by norm_num, by norm_num, by norm_num, by norm_num, by norm_num,
    european_monotone_in_v 2 1 (1/4) (1/2) (by norm_num) (by norm_num) (by norm_num)
      (by norm_num) (by norm_num) (by norm_num)⟩

/-! ### The running-maximum grids: column structure and mass -/

/-- Base-case columns of the forward grid. -/
lemma P1u_of_le_two (i j : ℕ) (h : j ≤ 2) : P1u i j = if i = 0 then 1 else 0 := by
  rw [P1u, dif_pos h]

/-- Recursive columns of the forward grid. -/
lemma P1u_of_ge (i j : ℕ) (h : 2 < j) : P1u i j =
    ∑ k in Finset.range (min (i + 1) ((j - 1) / 2 + 1)),
      P1u (i - k) (j - 1 - 2 * k) * numberDyckPaths k := by
  rw [P1u, dif_neg (by omega)]

/-- The forward grid vanishes strictly below the diagonal: a node reachable at
period `j` has at most `j` down-moves. -/
lemma P1u_eq_zero : ∀ j i, j < i → P1u i j = 0 := by
  intro j
  induction j using Nat.strong_induction_on with
  | _ j ih =>
    intro i hij
    by_cases h2 : j ≤ 2
    · rw [P1u_of_le_two i j h2, if_neg (by omega)]
    · rw [P1u_of_ge i j (by omega)]
      refine Finset.sum_eq_zero (fun k hk => ?_)
      have hk' : k < min (i + 1) ((j - 1) / 2 + 1) := Finset.mem_range.mp hk
      rw [ih (j - 1 - 2 * k) (by omega) (i - k) (by omega), zero_mul]

/-- Column sum of the forward grid over its valid rows. -/
def Sseq (j : ℕ) : ℚ := ∑ i in Finset.range (j + 1), P1u i j

lemma Sseq_le_two (j : ℕ) (h : j ≤ 2) : Sseq j = 1 := by
  interval_cases j <;>
    simp [Sseq, Finset.sum_range_succ, P1u_of_le_two]

/-- `numberDyckPaths` returns exactly the Catalan numbers. -/
lemma dyck_eq_catalan (k : ℕ) : numberDyckPaths k = (catalan k : ℚ) := by
  have h := succ_mul_catalan_eq_centralBinom k
  have hq : ((k : ℚ) + 1) * (catalan k : ℚ) = (Nat.centralBinom k : ℚ) := by
    exact_mod_cast congrArg (Nat.cast : ℕ → ℚ) h
  have hk1 : ((k : ℚ) + 1) ≠ 0 := by positivity
  show (Nat.centralBinom k : ℚ) / ((k : ℚ) + 1) = (catalan k : ℚ)
  rw [← hq, mul_comm, mul_div_assoc, div_self hk1, mul_one]

/-- For `n ≥ 1`, `numberPrimitiveDyckPaths` returns the shifted Catalan
numbers. -/
lemma prim_eq_catalan (r : ℕ) : numberPrimitiveDyckPaths (r + 1) = (catalan r : ℚ) := by
  have e1 : 2 * (r + 1) - 2 = 2 * r := by omega
  show (Nat.choose (2 * (r + 1) - 2) r : ℚ) / ((r + 1 : ℕ) : ℚ) = _
  rw [e1]
  have h := succ_mul_catalan_eq_centralBinom r
  have hq : ((r : ℚ) + 1) * (catalan r : ℚ) = (Nat.centralBinom r : ℚ) := by
    exact_mod_cast congrArg (Nat.cast : ℕ → ℚ) h
  have hk1 : ((r : ℚ) + 1) ≠ 0 := by positivity
  push_cast
  show (Nat.centralBinom r : ℚ) / ((r : ℚ) + 1) = (catalan r : ℚ)
  rw [← hq, mul_comm, mul_div_assoc, div_self hk1, mul_one]

/-- The common value of the backward grid's column `j` (which depends only on
the remaining span `m = N - j`): defined by the backward pass's own
recursion. -/
def cseq : ℕ → ℚ
  | 0 => 1
  | m + 1 => cseq m + ∑ k in (Finset.Ico 1 ((m + 1) / 2 + 1)).attach,
      cseq (m + 1 - 2 * k.1) * numberPrimitiveDyckPaths k.1
termination_by m => m
decreasing_by
  · omega
  · have hk := Finset.mem_Ico.mp k.2
    omega

/-- Every valid entry of the backward grid is constant along its column:
`P2[i,j] = cseq (N - j)` for all `i ≤ j ≤ N`. -/
lemma P2u_eq_cseq (N : ℕ) : ∀ d i j, i ≤ j → j ≤ N → N - j = d → P2u N i j = cseq d := by
  intro d
  induction d using Nat.strong_induction_on with
  | _ d ih =>
    intro i j hij hjN hd
    rcases Nat.eq_zero_or_pos d with h0 | hpos
    · subst h0
      have hj : j = N := by omega
      subst hj
      rw [P2u, if_pos rfl, cseq]
    · have hjN' : j < N := by omega
      obtain ⟨m, rfl⟩ : ∃ m, d = m + 1 := ⟨d - 1, by omega⟩
      rw [P2u, if_neg (by omega), dif_pos ⟨hjN', hij⟩]
      have h1 : P2u N (i + 1) (j + 1) = cseq m :=
        ih m (by omega) (i + 1) (j + 1) (by omega) (by omega) (by omega)
      have h2 : ∀ k ∈ (kRange2 N j).attach,
          P2u N (i + k.1) (j + 2 * k.1) * numberPrimitiveDyckPaths k.1 =
            cseq (m + 1 - 2 * k.1) * numberPrimitiveDyckPaths k.1 := by
        intro k _
        have hk := Finset.mem_Ico.mp k.2
        congr 1
        exact ih (m + 1 - 2 * k.1) (by omega) (i + k.1) (j + 2 * k.1)
          (by omega) (by omega) (by omega)
      rw [h1, Finset.sum_congr rfl h2, cseq]
      congr 1
      have hset : kRange2 N j = Finset.Ico 1 ((m + 1) / 2 + 1) := by
        rw [kRange2, hd]
      rw [hset]

/-- The forward column sums satisfy the Dyck-weighted recursion
`S(j) = sum_k numberDyckPaths(k) * S(j-1-2k)` for every `j ≥ 1` (for `j ≥ 3`
by exchanging the order of the grid's double sum, for `j = 1, 2` by direct
computation). -/
lemma Sseq_rec (j : ℕ) (hj : 1 ≤ j) :
    Sseq j = ∑ k in Finset.range ((j - 1) / 2 + 1),
      numberDyckPaths k * Sseq (j - 1 - 2 * k) := by
  by_cases h3 : j ≤ 2
  · interval_cases j <;>
      simp [Sseq_le_two, Finset.sum_range_one, numberDyckPaths]
  · have hj3 : 2 < j := by omega
    set M : ℕ := (j - 1) / 2 + 1 with hM
    calc Sseq j = ∑ i in Finset.range (j + 1), P1u i j := rfl
      _ = ∑ i in Finset.range (j + 1), ∑ k in Finset.range (min (i + 1) M),
            P1u (i - k) (j - 1 - 2 * k) * numberDyckPaths k :=
          Finset.sum_congr rfl (fun i _ => P1u_of_ge i j hj3)
      _ = ∑ i in Finset.range (j + 1), ∑ k in Finset.range M,
            (if k ≤ i then P1u (i - k) (j - 1 - 2 * k) * numberDyckPaths k else 0) := by
          refine Finset.sum_congr rfl (fun i _ => ?_)
          have hset : (Finset.range M).filter (fun k => k ≤ i) =
              Finset.range (min (i + 1) M) := by
            ext k
            simp only [Finset.mem_filter, Finset.mem_range, Nat.lt_min]
            omega
          rw [← Finset.sum_filter, hset]
      _ = ∑ k in Finset.range M, ∑ i in Finset.range (j + 1),
            (if k ≤ i then P1u (i - k) (j - 1 - 2 * k) * numberDyckPaths k else 0) :=
          Finset.sum_comm
      _ = ∑ k in Finset.range M, numberDyckPaths k * Sseq (j - 1 - 2 * k) := by
          refine Finset.sum_congr rfl (fun k hk => ?_)
          have hkM : k < M := Finset.mem_range.mp hk
          have hset2 : (Finset.range (j + 1)).filter (fun i => k ≤ i) =
              Finset.Ico k (j + 1) := by
            ext i
            simp only [Finset.mem_filter, Finset.mem_range, Finset.mem_Ico]
            omega
          rw [← Finset.sum_filter, hset2, Finset.sum_Ico_eq_sum_range]
          have e1 : ∀ i : ℕ, k + i - k = i := fun i => by omega
          have step : ∀ i ∈ Finset.range (j + 1 - k),
              P1u (k + i - k) (j - 1 - 2 * k) * numberDyckPaths k =
                P1u i (j - 1 - 2 * k) * numberDyckPaths k := by
            intro i _
            rw [e1 i]
          rw [Finset.sum_congr rfl step, ← Finset.sum_mul]
          have hsub : Finset.range ((j - 1 - 2 * k) + 1) ⊆ Finset.range (j + 1 - k) :=
            Finset.range_subset.mpr (by omega)
          have hvanish : ∀ i ∈ Finset.range (j + 1 - k),
              i ∉ Finset.range ((j - 1 - 2 * k) + 1) → P1u i (j - 1 - 2 * k) = 0 := by
            intro i _ hi
            have hnot : ¬ i < (j - 1 - 2 * k) + 1 := fun h => hi (Finset.mem_range.mpr h)
            have : j - 1 - 2 * k < i := by omega
            exact P1u_eq_zero (j - 1 - 2 * k) i this
          rw [← Finset.sum_subset hsub hvanish, mul_comm]
          rfl

/-- The Dyck-weighted convolution tail of `cseq`'s recursion:
`Tsum m = sum over k of catalan(k) * cseq(m-1-2k)`. -/
def Tsum (m : ℕ) : ℚ :=
  ∑ k in Finset.range ((m + 1) / 2), (catalan k : ℚ) * cseq (m - 1 - 2 * k)

/-- `cseq`'s recursion rewritten through `Tsum` (excursion half-lengths shifted
down by one so the primitive counts become Catalan numbers). -/
lemma cseq_succ (m : ℕ) : cseq (m + 1) = cseq m + Tsum m := by
  rw [cseq]
  congr 1
  rw [Finset.sum_attach (Finset.Ico 1 ((m + 1) / 2 + 1))
      (fun k => cseq (m + 1 - 2 * k) * numberPrimitiveDyckPaths k),
    Finset.sum_Ico_eq_sum_range]
  have e0 : (m + 1) / 2 + 1 - 1 = (m + 1) / 2 := by omega
  rw [e0, Tsum]
  refine Finset.sum_congr rfl (fun k hk => ?_)
  have e1 : m + 1 - 2 * (1 + k) = m - 1 - 2 * k := by omega
  have e2 : 1 + k = k + 1 := by omega
  rw [e1, e2, prim_eq_catalan k, mul_comm]

/-- The defect of the halving identity: `catalan(m/2)` at even `m`, `0` at
odd `m`. -/
def ep (m : ℕ) : ℚ := if m % 2 = 0 then (catalan (m / 2) : ℚ) else 0

/-- Catalan convolution (Segner's recurrence) over `ℚ`. -/
lemma catalan_conv (n : ℕ) :
    (∑ k in Finset.range (n + 1), (catalan k : ℚ) * (catalan (n - k) : ℚ)) =
      (catalan (n + 1) : ℚ) := by
  have h : catalan (n + 1) = ∑ k in Finset.range (n + 1), catalan k * catalan (n - k) := by
    rw [catalan_succ]
    exact Fin.sum_univ_eq_sum_range (fun k => catalan k * catalan (n - k)) (n + 1)
  rw [h]
  push_cast
  rfl

/-- The key halving identity for the backward column values: the convolution
tail equals `cseq m` minus the Catalan defect (strong induction, with the
even/odd cases exchanging roles through Segner's recurrence). -/
lemma Tsum_eq : ∀ m, Tsum m = cseq m - ep m := by
  intro m
  induction m using Nat.strong_induction_on with
  | _ m ih =>
    rcases m with _ | m'
    · have c0 : cseq 0 = 1 := by rw [cseq]
      have t0 : Tsum 0 = 0 := by
        rw [Tsum]
        simp
      rw [t0, c0, ep]
      simp [catalan_zero]
    · rcases Nat.even_or_odd m' with ⟨r, hr⟩ | ⟨r, hr⟩
      · -- `m' = r + r`: the appended column index is odd
        subst hr
        have e1 : (r + r + 1 + 1) / 2 = r + 1 := by omega
        rw [Tsum, e1, Finset.sum_range_succ]
        have e2 : r + r + 1 - 1 - 2 * r = 0 := by omega
        have c0 : cseq 0 = 1 := by rw [cseq]
        rw [e2, c0, mul_one]
        have step : ∀ k ∈ Finset.range r,
            (catalan k : ℚ) * cseq (r + r + 1 - 1 - 2 * k) =
              (catalan k : ℚ) * cseq (r + r - 1 - 2 * k) +
                (catalan k : ℚ) * Tsum (r + r - 1 - 2 * k) := by
          intro k hk
          have hkr : k < r := Finset.mem_range.mp hk
          have e3 : r + r + 1 - 1 - 2 * k = (r + r - 1 - 2 * k) + 1 := by omega
          rw [e3, cseq_succ, mul_add]
        rw [Finset.sum_congr rfl step, Finset.sum_add_distrib]
        have e4 : (r + r + 1) / 2 = r := by omega
        have hT : Tsum (r + r) = ∑ k in Finset.range r,
            (catalan k : ℚ) * cseq (r + r - 1 - 2 * k) := by
          rw [Tsum, e4]
        have step2 : ∀ k ∈ Finset.range r,
            (catalan k : ℚ) * Tsum (r + r - 1 - 2 * k) =
              (catalan k : ℚ) * cseq (r + r - 1 - 2 * k) := by
          intro k hk
          have hkr : k < r := Finset.mem_range.mp hk
          rw [ih (r + r - 1 - 2 * k) (by omega)]
          have hzero : ep (r + r - 1 - 2 * k) = 0 := by
            rw [ep, if_neg (by omega)]
          rw [hzero, sub_zero]
        rw [Finset.sum_congr rfl step2, ← hT]
        have hep : ep (r + r + 1) = 0 := by
          rw [ep, if_neg (by omega)]
        have hIH : Tsum (r + r) = cseq (r + r) - (catalan r : ℚ) := by
          rw [ih (r + r) (by omega)]
          have : ep (r + r) = (catalan r : ℚ) := by
            rw [ep, if_pos (by omega)]
            have e5 : (r + r) / 2 = r := by omega
            rw [e5]
          rw [this]
        rw [hep, sub_zero, cseq_succ (r + r)]
        linarith [hIH]
      · -- `m' = 2r + 1`: the appended column index is even
        subst hr
        have e1 : (2 * r + 1 + 1 + 1) / 2 = r + 1 := by omega
        rw [Tsum, e1]
        have step : ∀ k ∈ Finset.range (r + 1),
            (catalan k : ℚ) * cseq (2 * r + 1 + 1 - 1 - 2 * k) =
              (catalan k : ℚ) * cseq (2 * r - 2 * k) +
                (catalan k : ℚ) * Tsum (2 * r - 2 * k) := by
          intro k hk
          have hkr : k < r + 1 := Finset.mem_range.mp hk
          have e3 : 2 * r + 1 + 1 - 1 - 2 * k = (2 * r - 2 * k) + 1 := by omega
          rw [e3, cseq_succ, mul_add]
        rw [Finset.sum_congr rfl step, Finset.sum_add_distrib]
        have e4 : (2 * r + 1 + 1) / 2 = r + 1 := by omega
        have hT : Tsum (2 * r + 1) = ∑ k in Finset.range (r + 1),
            (catalan k : ℚ) * cseq (2 * r - 2 * k) := by
          rw [Tsum, e4]
          refine Finset.sum_congr rfl (fun k hk => ?_)
          have e5 : 2 * r + 1 - 1 - 2 * k = 2 * r - 2 * k := by omega
          rw [e5]
        have step2 : ∀ k ∈ Finset.range (r + 1),
            (catalan k : ℚ) * Tsum (2 * r - 2 * k) =
              (catalan k : ℚ) * cseq (2 * r - 2 * k) -
                (catalan k : ℚ) * (catalan (r - k) : ℚ) := by
          intro k hk
          have hkr : k < r + 1 := Finset.mem_range.mp hk
          rw [ih (2 * r - 2 * k) (by omega)]
          have heven : ep (2 * r - 2 * k) = (catalan (r - k) : ℚ) := by
            rw [ep, if_pos (by omega)]
            have e6 : (2 * r - 2 * k) / 2 = r - k := by omega
            rw [e6]
          rw [heven, mul_sub]
        rw [Finset.sum_congr rfl step2, Finset.sum_sub_distrib, catalan_conv r, ← hT]
        have hep : ep (2 * r + 1 + 1) = (catalan (r + 1) : ℚ) := by
          rw [ep, if_pos (by omega)]
          have e7 : (2 * r + 1 + 1) / 2 = r + 1 := by omega
          rw [e7]
        have hIH : Tsum (2 * r + 1) = cseq (2 * r + 1) := by
          rw [ih (2 * r + 1) (by omega)]
          have : ep (2 * r + 1) = 0 := by
            rw [ep, if_neg (by omega)]
          rw [this, sub_zero]
        rw [hep, cseq_succ (2 * r + 1)]
        linarith [hIH]

/-- The halving identity: appending one period doubles the backward column
value up to the Catalan defect. -/
lemma cseq_halving (m : ℕ) : cseq (m + 1) = 2 * cseq m - ep m := by
  rw [cseq_succ, Tsum_eq]
  ring

/-- Even-gap form of the forward column-sum recursion. -/
lemma Sseq_even_rec (M : ℕ) :
    Sseq (M + 1) = ∑ k in Finset.range (M / 2 + 1), (catalan k : ℚ) * Sseq (M - 2 * k) := by
  rw [Sseq_rec (M + 1) (by omega)]
  have e0 : (M + 1 - 1) / 2 + 1 = M / 2 + 1 := by omega
  rw [e0]
  refine Finset.sum_congr rfl (fun k hk => ?_)
  have e1 : M + 1 - 1 - 2 * k = M - 2 * k := by omega
  rw [e1, dyck_eq_catalan]

/-- Reindexing a parity-filtered sum by half the index. -/
lemma ep_reindex (h : ℕ → ℚ) : ∀ n,
    (∑ j in Finset.range n, if j % 2 = 0 then h (j / 2) else 0) =
      ∑ k in Finset.range ((n + 1) / 2), h k := by
  intro n
  induction n with
  | zero => simp
  | succ n ihn =>
    rw [Finset.sum_range_succ, ihn]
    by_cases hpar : n % 2 = 0
    · rw [if_pos hpar]
      have e2 : (n + 1 + 1) / 2 = (n + 1) / 2 + 1 := by omega
      rw [e2, Finset.sum_range_succ]
      have e3 : (n + 1) / 2 = n / 2 := by omega
      rw [e3]
    · rw [if_neg hpar, add_zero]
      have e2 : (n + 1 + 1) / 2 = (n + 1) / 2 := by omega
      rw [e2]

/-- The convolution of the two column-sum sequences counts all coin-flip
sequences: `sum over j of Sseq(j) * cseq(N-j) = 2^N`. -/
lemma conv_two_pow : ∀ N, (∑ j in Finset.range (N + 1), Sseq j * cseq (N - j)) = 2 ^ N := by
  intro N
  induction N with
  | zero =>
    rw [Finset.sum_range_one, Sseq_le_two 0 (by omega)]
    have c0 : cseq (0 - 0) = 1 := by rw [cseq]
    rw [c0]
    norm_num
  | succ N ihN =>
    rw [Finset.sum_range_succ]
    have e0 : N + 1 - (N + 1) = 0 := by omega
    have c0 : cseq 0 = 1 := by rw [cseq]
    rw [e0, c0, mul_one]
    have step : ∀ j ∈ Finset.range (N + 1),
        Sseq j * cseq (N + 1 - j) =
          2 * (Sseq j * cseq (N - j)) - Sseq j * ep (N - j) := by
      intro j hj
      have hjN : j < N + 1 := Finset.mem_range.mp hj
      have e1 : N + 1 - j = (N - j) + 1 := by omega
      rw [e1, cseq_halving (N - j)]
      ring
    rw [Finset.sum_congr rfl step, Finset.sum_sub_distrib, ← Finset.mul_sum, ihN]
    have hkey : (∑ j in Finset.range (N + 1), Sseq j * ep (N - j)) = Sseq (N + 1) := by
      rw [← Finset.sum_range_reflect (fun j => Sseq j * ep (N - j)) (N + 1)]
      have step2 : ∀ j ∈ Finset.range (N + 1),
          Sseq (N + 1 - 1 - j) * ep (N - (N + 1 - 1 - j)) =
            (if j % 2 = 0 then (catalan (j / 2) : ℚ) * Sseq (N - 2 * (j / 2)) else 0) := by
        intro j hj
        have hjN : j < N + 1 := Finset.mem_range.mp hj
        have e2 : N - (N + 1 - 1 - j) = j := by omega
        have e3 : N + 1 - 1 - j = N - j := by omega
        rw [e2, e3, ep]
        by_cases hpar : j % 2 = 0
        · rw [if_pos hpar, if_pos hpar]
          have e4 : N - 2 * (j / 2) = N - j := by omega
          rw [e4, mul_comm]
        · rw [if_neg hpar, if_neg hpar, mul_zero]
      rw [Finset.sum_congr rfl step2,
        ep_reindex (fun k => (catalan k : ℚ) * Sseq (N - 2 * k)) (N + 1)]
      have e5 : (N + 1 + 1) / 2 = N / 2 + 1 := by omega
      rw [e5, ← Sseq_even_rec N]
    rw [hkey]
    ring

/-- Row-collapsing the product of the two grids in one column: only rows
`i ≤ j` contribute, where `P2` is constant, so the column's product mass is
`Sseq j * cseq (N - j)`. -/
lemma column_product (N j : ℕ) (hjN : j ≤ N) :
    (∑ i in Finset.range (N + 1), P1u i j * P2u N i j) = Sseq j * cseq (N - j) := by
  have hsub : Finset.range (j + 1) ⊆ Finset.range (N + 1) :=
    Finset.range_subset.mpr (by omega)
  have hvanish : ∀ i ∈ Finset.range (N + 1), i ∉ Finset.range (j + 1) →
      P1u i j * P2u N i j = 0 := by
    intro i _ hi
    have hnot : ¬ i < j + 1 := fun h => hi (Finset.mem_range.mpr h)
    rw [P1u_eq_zero j i (by omega), zero_mul]
  rw [← Finset.sum_subset hsub hvanish]
  have step : ∀ i ∈ Finset.range (j + 1),
      P1u i j * P2u N i j = P1u i j * cseq (N - j) := by
    intro i hi
    have hij : i ≤ j := by
      have := Finset.mem_range.mp hi
      omega
    rw [P2u_eq_cseq N (N - j) i j hij hjN rfl]
  rw [Finset.sum_congr rfl step, ← Finset.sum_mul, Sseq]

/-- **C3** (amended).  The columns of the normalised grids are *not* each a
probability distribution (see the counterexample); the conservation law the
engine actually satisfies is global: the entrywise product `P1n * P2n` of the
two normalised grids — the distribution of the location of the path's first
global level maximum — sums to `1` over the whole grid. -/
theorem mass_conservation_product (N : ℕ) (v : ℚ)
    (hN : 2 ≤ N) (hv0 : 0 < v) (hv1 : v < 1) :
    (∑ j in Finset.range (N + 1), ∑ i in Finset.range (N + 1), P1n i j * P2n N i j) = 1 := by
  have step : ∀ j ∈ Finset.range (N + 1),
      (∑ i in Finset.range (N + 1), P1n i j * P2n N i j) =
        Sseq j * cseq (N - j) / 2 ^ N := by
    intro j hj
    have hjN : j ≤ N := by
      have := Finset.mem_range.mp hj
      omega
    have e1 : ∀ i, P1n i j * P2n N i j = P1u i j * P2u N i j / 2 ^ N := by
      intro i
      rw [P1n, P2n, div_mul_div_comm, ← pow_add]
      congr 2
      omega
    rw [Finset.sum_congr rfl (fun i _ => e1 i), ← Finset.sum_div, column_product N j hjN]
  rw [Finset.sum_congr rfl step, ← Finset.sum_div, conv_two_pow N]
  have h2 : (2 : ℚ) ^ N ≠ 0 := by positivity
  field_simp

/-- **C3** (counterexample).  Probability mass is *not* conserved column by
column: in the forward grid the only nonzero entry of column `1` is
`P1[0,1] = 1`, so after normalisation by `2^1` the column sums to `1/2`, not
`1` (any grid size `N ≥ 2`, e.g. `N = 2`, and any `v`; the grids do not
depend on `v`). -/
theorem mass_conservation_counterexample : (∑ i in Finset.range 3, P1n i 1) ≠ 1 := by
  have h : (∑ i in Finset.range 3, P1n i 1) = 1 / 2 := by
    rw [Finset.sum_range_succ, Finset.sum_range_succ, Finset.sum_range_one,
      P1n, P1n, P1n, P1u_of_le_two 0 1 (by omega), P1u_of_le_two 1 1 (by omega),
      P1u_of_le_two 2 1 (by omega)]
    norm_num
  rw [h]
  norm_num

/-- Witness for the amended C3 at `N = 2`, `v = 1/2`. -/
theorem mass_conservation_product_witness :
    (2 ≤ 2 ∧ (0 : ℚ) < 1/2 ∧ (1/2 : ℚ) < 1) ∧
      (∑ j in Finset.range 3, ∑ i in Finset.range 3, P1n i j * P2n 2 i j) = 1 :=
  ⟨⟨by omega, by norm_num, by norm_num⟩,
    mass_conservation_product 2 (1/2) (by omega) (by norm_num) (by norm_num)⟩
